import Mathlib

/-
  Verification of the Real-Estate-Assistant ingestion pipeline.

  Shallow embedding of the pipeline's core modules:
    src/services/cache.py       (content cache with TTL and capacity sweep)
    src/ingestion/collector.py  (fetch retry/backoff, content hashing, batch dedup)
    src/ingestion/sources.py    (source discovery and URL dedup)
    src/storage/vector_store.py (sentence-aware chunking)
    src/analysis/trends.py      (z-score anomaly detection)
    src/extraction/sentiment.py (LLM extraction, validation, market normalization)
    src/services/ingestion.py   (per-article orchestration with rollback)

  External runtime facilities (json.loads, float(), str(), SHA-256, the HTTP
  client, the LLM endpoint) are modelled as parameters; everything else is a
  direct translation of the Python source.
-/

set_option maxRecDepth 4096

namespace RealEstate

/-- Model of a decoded Python JSON value, the output of the external
json.loads.  Objects are represented as association lists with distinct keys
(json.loads keeps the last binding for a repeated key). -/
inductive JVal where
  | null
  | bool (b : Bool)
  | num (q : ℚ)
  | str (s : String)
  | arr (elems : List JVal)
  | obj (fields : List (String × JVal))

/-- The Python exceptions the extraction code can raise and catch. -/
inductive PyErr where
  | attributeError
  | typeError
deriving DecidableEq

instance {ε α : Type} [DecidableEq ε] [DecidableEq α] :
    DecidableEq (Except ε α) := fun a b =>
  match a, b with
  | .error e, .error f => decidable_of_iff (e = f) (by simp)
  | .error _, .ok _ => isFalse (by simp)
  | .ok _, .error _ => isFalse (by simp)
  | .ok x, .ok y => decidable_of_iff (x = y) (by simp)

/-- Python whitespace characters recognised by str.strip(). -/
def is_py_space (c : Char) : Bool :=
  c == ' ' || c == '\t' || c == '\n' || c == '\r' || c == '\x0b' || c == '\x0c'

/-- Python str.strip(): remove leading and trailing whitespace. -/
def py_strip (s : String) : String :=
  ⟨((s.data.dropWhile is_py_space).reverse.dropWhile is_py_space).reverse⟩

/-- Python slicing s[:n] (by characters). -/
def py_take (n : Nat) (s : String) : String :=
  ⟨s.data.take n⟩

/-- Python dict.get(key, default) on a decoded JSON value; raises
AttributeError when the receiver is not a dict, as ext.get does in
_validate/_parse. -/
def pyGet (v : JVal) (key : String) (default : JVal) : Except PyErr JVal :=
  match v with
  | .obj fields => .ok ((List.lookup key fields).getD default)
  | _ => .error .attributeError

/-- Python iteration over a decoded JSON value (for t in x): lists yield
their elements, strings their characters, dicts their keys; numbers, booleans
and None raise TypeError. -/
def pyIter : JVal → Except PyErr (List JVal)
  | .arr xs => .ok xs
  | .str s => .ok (s.data.map (fun c => .str ⟨[c]⟩))
  | .obj fields => .ok (fields.map (fun p => .str p.1))
  | _ => .error .typeError

/-- Model of _safe_float from src/extraction/sentiment.py: float(value) with
the given default on ValueError/TypeError.  Conversion of strings is Python's
float() on str, passed in as the parameter str_float (none = ValueError). -/
def safe_float (str_float : String → Option ℚ) (v : JVal) (default : ℚ) : ℚ :=
  match v with
  | .num q => q
  | .bool b => if b then 1 else 0
  | .str s => (str_float s).getD default
  | _ => default

/-- A validated extraction record, the dict produced by
SentimentExtractor._validate. -/
structure Extraction where
  market : String
  sentiment : ℚ
  confidence : ℚ
  topics : List String
deriving DecidableEq

/-- The fallback record returned whenever extraction cannot produce anything
else (sentiment.py lines 78, 94, 128). -/
def default_extraction : Extraction :=
  { market := "National", sentiment := 0, confidence := 1/5, topics := [] }

/-- The alias table of SentimentExtractor._normalize_market. -/
def market_aliases : List (String × String) :=
  [("NYC", "New York"), ("New York City", "New York"), ("Manhattan", "New York"),
   ("LA", "Los Angeles"), ("L.A.", "Los Angeles"),
   ("SF", "San Francisco"), ("Bay Area", "San Francisco"),
   ("DC", "Washington DC"), ("D.C.", "Washington DC"), ("Washington", "Washington DC"),
   ("Philly", "Philadelphia"), ("Vegas", "Las Vegas"),
   ("DFW", "Dallas"), ("Dallas-Fort Worth", "Dallas")]

/-- Python dict.get(market, market) over an association list. -/
def lookup_alias (m : String) : List (String × String) → Option String
  | [] => none
  | kv :: rest => if m = kv.1 then some kv.2 else lookup_alias m rest

/-- SentimentExtractor._normalize_market: map an alias to its canonical name,
pass anything else through unchanged. -/
def normalize_market (m : String) : String :=
  (lookup_alias m market_aliases).getD m

/-- The configured market whitelist, Settings.valid_markets from
src/config.py. -/
def valid_markets : List String :=
  ["National", "New York", "Los Angeles", "Chicago", "Houston", "Phoenix",
   "Philadelphia", "San Antonio", "San Diego", "Dallas", "San Jose",
   "Austin", "Jacksonville", "Fort Worth", "Columbus", "Charlotte",
   "San Francisco", "Indianapolis", "Seattle", "Denver", "Boston",
   "Nashville", "Detroit", "Portland", "Las Vegas", "Memphis",
   "Louisville", "Baltimore", "Milwaukee", "Albuquerque", "Tucson",
   "Fresno", "Sacramento", "Atlanta", "Miami", "Tampa", "Orlando",
   "Cleveland", "Raleigh", "Minneapolis", "St. Louis", "Pittsburgh"]

/-- The per-record loop of SentimentExtractor._validate: normalize and
whitelist-check the market, drop duplicates, clamp sentiment and confidence,
truncate topics.  seen is the set of already-accepted markets. -/
def validate_loop (str_float : String → Option ℚ) (py_str : JVal → String)
    (markets : List String) : List JVal → List String →
    Except PyErr (List Extraction)
  | [], _ => .ok []
  | ext :: rest, seen =>
    match pyGet ext "market" (.str "National") with
    | .error e => .error e
    | .ok mv =>
      if normalize_market (py_strip (py_str mv)) ∉ markets ∨
          normalize_market (py_strip (py_str mv)) ∈ seen then
        validate_loop str_float py_str markets rest seen
      else
        match pyGet ext "sentiment" (.num 0) with
        | .error e => .error e
        | .ok sv =>
          match pyGet ext "confidence" (.num (1/2)) with
          | .error e => .error e
          | .ok cv =>
            match pyGet ext "topics" (.arr []) with
            | .error e => .error e
            | .ok tv =>
              match pyIter tv with
              | .error e => .error e
              | .ok ts =>
                match validate_loop str_float py_str markets rest
                    (normalize_market (py_strip (py_str mv)) :: seen) with
                | .error e => .error e
                | .ok tail =>
                  .ok (⟨normalize_market (py_strip (py_str mv)),
                        max (-1) (min 1 (safe_float str_float sv 0)),
                        max 0 (min 1 (safe_float str_float cv (1/2))),
                        (ts.map (fun t => py_take 50 (py_str t))).take 3⟩ :: tail)

/-- SentimentExtractor._validate: iterate the raw extraction list, keep the
validated records, and synthesize the catch-all neutral record when nothing
survives. -/
def validate (str_float : String → Option ℚ) (py_str : JVal → String)
    (markets : List String) (v : JVal) : Except PyErr (List Extraction) :=
  match pyIter v with
  | .error e => .error e
  | .ok exts =>
    match validate_loop str_float py_str markets exts [] with
    | .error e => .error e
    | .ok out => .ok (if out.isEmpty then [default_extraction] else out)

theorem lookup_alias_mem {m v : String} {l : List (String × String)}
    (h : lookup_alias m l = some v) : (m, v) ∈ l := by
  induction l with
  | nil => simp [lookup_alias] at h
  | cons kv rest ih =>
    obtain ⟨k, w⟩ := kv
    by_cases hm : m = k
    · subst hm
      simp [lookup_alias] at h
      subst h
      exact List.mem_cons_self _ _
    · simp [lookup_alias, hm] at h
      exact List.mem_cons_of_mem _ (ih h)

theorem alias_values_not_keys :
    ∀ kv ∈ market_aliases, lookup_alias kv.2 market_aliases = none := by
  decide

/-- Normalizing a market name is idempotent. -/
theorem normalize_market_idem (m : String) :
    normalize_market (normalize_market m) = normalize_market m := by
  unfold normalize_market
  cases h : lookup_alias m market_aliases with
  | none => simp [h]
  | some v =>
    have hv := alias_values_not_keys _ (lookup_alias_mem h)
    simp [hv]

theorem py_take_length (n : Nat) (s : String) : (py_take n s).length ≤ n :=
  List.length_take_le n s.data

/-- Every record accepted by the _validate loop has a normalized,
whitelisted, non-duplicate market, clamped sentiment and confidence, and
truncated topics. -/
theorem validate_loop_sound (str_float : String → Option ℚ)
    (py_str : JVal → String) (markets : List String) :
    ∀ (exts : List JVal) (seen : List String) (out : List Extraction),
    validate_loop str_float py_str markets exts seen = .ok out →
    (∀ r ∈ out,
      normalize_market r.market = r.market ∧ r.market ∈ markets ∧
      -1 ≤ r.sentiment ∧ r.sentiment ≤ 1 ∧
      0 ≤ r.confidence ∧ r.confidence ≤ 1 ∧
      r.topics.length ≤ 3 ∧ (∀ t ∈ r.topics, t.length ≤ 50) ∧
      r.market ∉ seen) ∧
    (out.map Extraction.market).Nodup := by
  intro exts
  induction exts with
  | nil =>
    intro seen out h
    simp only [validate_loop, Except.ok.injEq] at h
    simp [← h]
  | cons ext rest ih =>
    intro seen out h
    rw [validate_loop] at h
    split at h
    · simp at h
    · split at h
      · exact ih seen out h
      next hskip =>
        push_neg at hskip
        obtain ⟨hmem, hseen⟩ := hskip
        split at h
        · simp at h
        · split at h
          · simp at h
          · split at h
            · simp at h
            · split at h
              · simp at h
              next ts hts =>
                split at h
                · simp at h
                next tail htail =>
                  simp only [Except.ok.injEq] at h
                  obtain ⟨htailrec, htailnd⟩ := ih _ tail htail
                  subst h
                  constructor
                  · intro r hr
                    rcases List.mem_cons.mp hr with hr | hr
                    · subst hr
                      refine ⟨normalize_market_idem _, hmem, ?_, ?_, ?_, ?_, ?_, ?_, hseen⟩
                      · exact le_max_left _ _
                      · exact max_le (by norm_num) (min_le_left _ _)
                      · exact le_max_left _ _
                      · exact max_le (by norm_num) (min_le_left _ _)
                      · exact List.length_take_le _ _
                      · intro t ht
                        obtain ⟨u, _, rfl⟩ := List.mem_map.mp (List.mem_of_mem_take ht)
                        exact py_take_length 50 _
                    · obtain ⟨h1, h2, h3, h4, h5, h6, h7, h8, h9⟩ := htailrec r hr
                      exact ⟨h1, h2, h3, h4, h5, h6, h7, h8,
                        fun hc => h9 (List.mem_cons_of_mem _ hc)⟩
                  · refine List.nodup_cons.mpr ⟨?_, htailnd⟩
                    intro hc
                    obtain ⟨r, hr, hrm⟩ := List.mem_map.mp hc
                    have := (htailrec r hr).2.2.2.2.2.2.2.2
                    exact this (hrm ▸ List.mem_cons_self _ _)

/-- The validated output is never empty: the catch-all record is synthesized
when nothing survives. -/
theorem validate_ok_nonempty (str_float : String → Option ℚ)
    (py_str : JVal → String) (markets : List String) (v : JVal)
    (out : List Extraction)
    (h : validate str_float py_str markets v = .ok out) : out ≠ [] := by
  rw [validate] at h
  split at h
  · simp at h
  · split at h
    · simp at h
    next res hl =>
      simp only [Except.ok.injEq] at h
      subst h
      by_cases hres : res.isEmpty
      · simp [hres]
      · simp only [hres, if_false]
        simpa [List.isEmpty_iff] using hres

/-- Every record returned by _validate against the configured whitelist has a
whitelisted market. -/
theorem validate_ok_whitelisted (str_float : String → Option ℚ)
    (py_str : JVal → String) (v : JVal) (out : List Extraction)
    (h : validate str_float py_str valid_markets v = .ok out) :
    ∀ r ∈ out, r.market ∈ valid_markets := by
  rw [validate] at h
  split at h
  · simp at h
  next exts hi =>
    split at h
    · simp at h
    next res hl =>
      simp only [Except.ok.injEq] at h
      subst h
      by_cases hres : res.isEmpty
      · simp only [hres, if_true]
        intro r hr
        simp at hr
        subst hr
        show "National" ∈ valid_markets
        decide
      · simp only [hres, if_false]
        intro r hr
        exact ((validate_loop_sound str_float py_str valid_markets exts [] res hl).1
          r hr).2.1

/-- A concrete instance of the external str() conversion used to evaluate the
model on closed inputs; it is exact on the string, boolean and null cases the
examples exercise. -/
def py_str_model : JVal → String
  | .str s => s
  | .bool b => if b then "True" else "False"
  | .null => "None"
  | _ => ""

/-- A concrete instance of the external float() conversion on strings: every
string raises ValueError, so the default is used. -/
def str_float_model : String → Option ℚ := fun _ => none

/-- The raw extraction list of the end-to-end scenario: market NYC, sentiment
5, confidence -1, topics x. -/
def nyc_example : JVal :=
  .arr [.obj [("market", .str "NYC"), ("sentiment", .num 5),
              ("confidence", .num (-1)), ("topics", .arr [.str "x"])]]

/-- Records produced by _validate against the configured whitelist are
normalized, whitelisted, clamped, topic-truncated and pairwise distinct in
market. -/
theorem validate_ok_sound (str_float : String → Option ℚ)
    (py_str : JVal → String) (v : JVal) (out : List Extraction)
    (h : validate str_float py_str valid_markets v = .ok out) :
    (∀ r ∈ out,
      normalize_market r.market = r.market ∧ r.market ∈ valid_markets ∧
      -1 ≤ r.sentiment ∧ r.sentiment ≤ 1 ∧
      0 ≤ r.confidence ∧ r.confidence ≤ 1 ∧
      r.topics.length ≤ 3 ∧ (∀ t ∈ r.topics, t.length ≤ 50)) ∧
    (out.map Extraction.market).Nodup := by
  rw [validate] at h
  split at h
  · simp at h
  next exts hi =>
    split at h
    · simp at h
    next res hl =>
      simp only [Except.ok.injEq] at h
      subst h
      have hs := validate_loop_sound str_float py_str valid_markets exts [] res hl
      by_cases hres : res.isEmpty
      · simp only [hres, if_true]
        constructor
        · intro r hr
          simp at hr
          subst hr
          refine ⟨by decide, by decide, ?_, ?_, ?_, ?_, ?_, ?_⟩ <;>
            norm_num [default_extraction]
        · simp
      · simp only [hres, if_false]
        exact ⟨fun r hr => ⟨(hs.1 r hr).1, (hs.1 r hr).2.1, (hs.1 r hr).2.2.1,
          (hs.1 r hr).2.2.2.1, (hs.1 r hr).2.2.2.2.1, (hs.1 r hr).2.2.2.2.2.1,
          (hs.1 r hr).2.2.2.2.2.2.1, (hs.1 r hr).2.2.2.2.2.2.2.1⟩, hs.2⟩

/-- C6: for every list of raw extraction records, every record produced by
validation has an alias-normalized, whitelisted market, no two records share
a market, sentiment is clamped into [-1,1], confidence into [0,1], topics
are truncated to at most 3 entries of at most 50 characters; in particular
the record with market NYC, sentiment 5, confidence -1, topics [x] validates
to market "New York" with sentiment 1 and confidence 0. -/
theorem validate_clamps_and_normalizes
    (str_float : String → Option ℚ) (py_str : JVal → String)
    (v : JVal) (out : List Extraction)
    (h : validate str_float py_str valid_markets v = .ok out) :
    ((∀ r ∈ out,
        normalize_market r.market = r.market ∧ r.market ∈ valid_markets ∧
        -1 ≤ r.sentiment ∧ r.sentiment ≤ 1 ∧
        0 ≤ r.confidence ∧ r.confidence ≤ 1 ∧
        r.topics.length ≤ 3 ∧ (∀ t ∈ r.topics, t.length ≤ 50)) ∧
      (out.map Extraction.market).Nodup) ∧
    validate str_float_model py_str_model valid_markets nyc_example =
      .ok [{ market := "New York", sentiment := 1, confidence := 0,
             topics := ["x"] }] :=
  ⟨validate_ok_sound str_float py_str v out h, by decide⟩

/-- Witness for C6 at the end-to-end example input. -/
theorem validate_clamps_and_normalizes_witness :
    validate str_float_model py_str_model valid_markets nyc_example =
      .ok [{ market := "New York", sentiment := 1, confidence := 0,
             topics := ["x"] }] ∧
    ((∀ r ∈ ([{ market := "New York", sentiment := 1, confidence := 0,
                topics := ["x"] }] : List Extraction),
        normalize_market r.market = r.market ∧ r.market ∈ valid_markets ∧
        -1 ≤ r.sentiment ∧ r.sentiment ≤ 1 ∧
        0 ≤ r.confidence ∧ r.confidence ≤ 1 ∧
        r.topics.length ≤ 3 ∧ (∀ t ∈ r.topics, t.length ≤ 50)) ∧
      (([{ market := "New York", sentiment := 1, confidence := 0,
           topics := ["x"] }] : List Extraction).map
          Extraction.market).Nodup) :=
  ⟨by decide,
   (validate_clamps_and_normalizes str_float_model py_str_model nyc_example _
      (by decide)).1⟩

/-- C9: market normalization is idempotent, fixes canonical whitelisted
names, maps aliases to canonical names, passes unknown names through
unchanged, and the validation whitelist filter keeps only whitelisted
markets. -/
theorem normalize_market_spec :
    (∀ x, normalize_market (normalize_market x) = normalize_market x) ∧
    (∀ m ∈ valid_markets, normalize_market m = m) ∧
    (∀ kv ∈ market_aliases, normalize_market kv.1 = kv.2) ∧
    (∀ x, lookup_alias x market_aliases = none → normalize_market x = x) ∧
    (∀ (str_float : String → Option ℚ) (py_str : JVal → String) v out,
      validate str_float py_str valid_markets v = .ok out →
      ∀ r ∈ out, r.market ∈ valid_markets) := by
  refine ⟨normalize_market_idem, by decide, by decide, ?_, ?_⟩
  · intro x hx
    simp [normalize_market, hx]
  · intro sf ps v out h r hr
    exact validate_ok_whitelisted sf ps v out h r hr

/-- Witness for C9 at concrete names and a concrete validation run. -/
theorem normalize_market_spec_witness :
    (normalize_market (normalize_market "NYC") = normalize_market "NYC") ∧
    ("Dallas" ∈ valid_markets ∧ normalize_market "Dallas" = "Dallas") ∧
    (("NYC", "New York") ∈ market_aliases ∧
      normalize_market "NYC" = "New York") ∧
    (lookup_alias "Boise" market_aliases = none ∧
      normalize_market "Boise" = "Boise") ∧
    (validate str_float_model py_str_model valid_markets (.arr []) =
        .ok [default_extraction] ∧
      ∀ r ∈ [default_extraction], r.market ∈ valid_markets) :=
  ⟨normalize_market_spec.1 "NYC",
   ⟨by decide, normalize_market_spec.2.1 "Dallas" (by decide)⟩,
   ⟨by decide, normalize_market_spec.2.2.1 ("NYC", "New York") (by decide)⟩,
   ⟨by decide, normalize_market_spec.2.2.2.1 "Boise" (by decide)⟩,
   ⟨rfl, normalize_market_spec.2.2.2.2 str_float_model py_str_model
      (.arr []) [default_extraction] rfl⟩⟩

/-- Index of the first opening brace that is followed by a closing brace,
where the regex in _parse can start a match. -/
def brace_start : List Char → Option Nat
  | [] => none
  | c :: rest =>
    if c = '\x7b' ∧ rest.contains '\x7d' then some 0
    else (brace_start rest).map (· + 1)

/-- The greedy brace-delimited span the fallback tier of
SentimentExtractor._parse feeds back to the JSON decoder: from the first
viable opening brace to the last closing brace of the response text. -/
def brace_span (s : String) : Option String :=
  match brace_start s.data with
  | none => none
  | some p =>
    match (s.data.reverse.findIdx? (fun c => c = '\x7d')) with
    | none => none
    | some r => some ⟨(s.data.drop p).take (s.data.length - r - p)⟩

/-- SentimentExtractor._parse: try a direct decode of the full response and
validate it (exceptions other than a decode failure propagate); on decode
failure, re-decode the brace-delimited span, where any failure at all yields
the fallback record. -/
def parse_response (str_float : String → Option ℚ) (py_str : JVal → String)
    (decode : String → Option JVal) (markets : List String) (text : String) :
    Except PyErr (List Extraction) :=
  match decode text with
  | some data =>
    match pyGet data "extractions" (.arr []) with
    | .error e => .error e
    | .ok exts => validate str_float py_str markets exts
  | none =>
    match brace_span text with
    | some sub =>
      match decode sub with
      | some data =>
        match pyGet data "extractions" (.arr []) with
        | .error _ => .ok [default_extraction]
        | .ok exts =>
          match validate str_float py_str markets exts with
          | .error _ => .ok [default_extraction]
          | .ok r => .ok r
      | none => .ok [default_extraction]
    | none => .ok [default_extraction]

/-- Outcome of one call to the extraction model endpoint. -/
inductive ApiOutcome where
  | failure (rate_limited : Bool)
  | success (text : String)

/-- Truthiness of the get_cached result in extract (if cached: ...): None
and the empty list are both falsy. -/
def truthy_cache : Option (List Extraction) → Bool
  | none => false
  | some l => !l.isEmpty

/-- Whether an attempt raised instead of returning a response. -/
def is_api_failure : ApiOutcome → Bool
  | .failure _ => true
  | .success _ => false

/-- The retry loop of SentimentExtractor.extract: up to the given number of
attempts; an endpoint failure or a parse exception moves to the next
attempt, a parsed result is returned, and exhaustion yields the fallback
record. -/
def extract_loop (str_float : String → Option ℚ) (py_str : JVal → String)
    (decode : String → Option JVal) (markets : List String)
    (responses : Nat → ApiOutcome) : Nat → Nat → List Extraction
  | _, 0 => [default_extraction]
  | attempt, fuel + 1 =>
    match responses attempt with
    | .failure _ => extract_loop str_float py_str decode markets responses
        (attempt + 1) fuel
    | .success text =>
      match parse_response str_float py_str decode markets text with
      | .ok r => r
      | .error _ => extract_loop str_float py_str decode markets responses
          (attempt + 1) fuel

/-- SentimentExtractor.extract: return a truthy cached result verbatim, else
run up to three model attempts and fall back to the default-neutral record. -/
def extract (str_float : String → Option ℚ) (py_str : JVal → String)
    (decode : String → Option JVal) (markets : List String)
    (cached : Option (List Extraction)) (responses : Nat → ApiOutcome) :
    List Extraction :=
  if truthy_cache cached then cached.getD []
  else extract_loop str_float py_str decode markets responses 0 3

theorem parse_response_ok_nonempty (str_float : String → Option ℚ)
    (py_str : JVal → String) (decode : String → Option JVal)
    (markets : List String) (text : String) (out : List Extraction)
    (h : parse_response str_float py_str decode markets text = .ok out) :
    out ≠ [] := by
  rw [parse_response] at h
  split at h
  · split at h
    · simp at h
    · exact validate_ok_nonempty _ _ _ _ _ h
  · split at h
    · split at h
      · split at h
        · simp only [Except.ok.injEq] at h
          simp [← h]
        next exts hexts =>
          split at h
          · simp only [Except.ok.injEq] at h
            simp [← h]
          next r hr =>
            simp only [Except.ok.injEq] at h
            subst h
            exact validate_ok_nonempty _ _ _ _ _ hr
      · simp only [Except.ok.injEq] at h
        simp [← h]
    · simp only [Except.ok.injEq] at h
      simp [← h]

theorem extract_loop_ne_nil (str_float : String → Option ℚ)
    (py_str : JVal → String) (decode : String → Option JVal)
    (markets : List String) (responses : Nat → ApiOutcome) :
    ∀ (fuel attempt : Nat),
    extract_loop str_float py_str decode markets responses attempt fuel ≠ [] := by
  intro fuel
  induction fuel with
  | zero => intro attempt; simp [extract_loop]
  | succ fuel ih =>
    intro attempt
    rw [extract_loop]
    split
    · exact ih (attempt + 1)
    · split
      next r hr => exact parse_response_ok_nonempty _ _ _ _ _ _ hr
      · exact ih (attempt + 1)

theorem extract_loop_all_fail (str_float : String → Option ℚ)
    (py_str : JVal → String) (decode : String → Option JVal)
    (markets : List String) (responses : Nat → ApiOutcome) :
    ∀ (fuel attempt : Nat),
    (∀ a, attempt ≤ a → a < attempt + fuel → is_api_failure (responses a) = true) →
    extract_loop str_float py_str decode markets responses attempt fuel =
      [default_extraction] := by
  intro fuel
  induction fuel with
  | zero => intro attempt _; simp [extract_loop]
  | succ fuel ih =>
    intro attempt hall
    rw [extract_loop]
    cases hr : responses attempt with
    | failure rl =>
      exact ih (attempt + 1) fun a ha1 ha2 =>
        hall a (Nat.le_of_succ_le ha1) (by omega)
    | success text =>
      have := hall attempt (Nat.le_refl _) (by omega)
      rw [hr] at this
      simp [is_api_failure] at this

theorem extract_loop_undecodable (str_float : String → Option ℚ)
    (py_str : JVal → String) (decode : String → Option JVal)
    (markets : List String) (responses : Nat → ApiOutcome)
    (hdec : ∀ t, decode t = none) :
    ∀ (fuel attempt : Nat),
    extract_loop str_float py_str decode markets responses attempt fuel =
      [default_extraction] := by
  intro fuel
  induction fuel with
  | zero => intro attempt; simp [extract_loop]
  | succ fuel ih =>
    intro attempt
    rw [extract_loop]
    cases hr : responses attempt with
    | failure rl => exact ih (attempt + 1)
    | success text =>
      have hp : parse_response str_float py_str decode markets text =
          .ok [default_extraction] := by
        rw [parse_response, hdec text]
        cases hb : brace_span text with
        | none => simp [hb]
        | some sub => simp [hb, hdec sub]
      simp [hp]

/-- C7: extraction never throws and always returns a non-empty list; when
the model output is undecodable, when validation accepts nothing, or when
every attempt fails, the single default-neutral National record with
sentiment 0 is returned instead of an error. -/
theorem extract_total_and_falls_back (str_float : String → Option ℚ)
    (py_str : JVal → String) (decode : String → Option JVal)
    (markets : List String) (cached : Option (List Extraction))
    (responses : Nat → ApiOutcome) :
    extract str_float py_str decode markets cached responses ≠ [] ∧
    default_extraction.market = "National" ∧ default_extraction.sentiment = 0 ∧
    ((∀ t, decode t = none) → truthy_cache cached = false →
      extract str_float py_str decode markets cached responses =
        [default_extraction]) ∧
    ((∀ a, a < 3 → is_api_failure (responses a) = true) →
      truthy_cache cached = false →
      extract str_float py_str decode markets cached responses =
        [default_extraction]) ∧
    (∀ v out, validate str_float py_str markets v = .ok out → out ≠ []) := by
  refine ⟨?_, rfl, rfl, ?_, ?_, ?_⟩
  · rw [extract]
    split
    next htr =>
      cases cached with
      | none => simp [truthy_cache] at htr
      | some l =>
        simp only [truthy_cache, Bool.not_eq_true'] at htr
        simpa [List.isEmpty_iff] using htr
    · exact extract_loop_ne_nil _ _ _ _ _ 3 0
  · intro hdec htr
    rw [extract, htr]
    simp only [Bool.false_eq_true, if_false]
    exact extract_loop_undecodable _ _ _ _ _ hdec 3 0
  · intro hfail htr
    rw [extract, htr]
    simp only [Bool.false_eq_true, if_false]
    exact extract_loop_all_fail _ _ _ _ _ 3 0 fun a _ h2 => hfail a (by omega)
  · intro v out h
    exact validate_ok_nonempty _ _ _ _ _ h

/-- Witness for C7: the no-credential run (every decode fails, every attempt
raises, cache miss) returns exactly the default-neutral record. -/
theorem extract_total_and_falls_back_witness :
    (∀ t : String, (fun _ : String => (none : Option JVal)) t = none) ∧
    (∀ a, a < 3 →
      is_api_failure ((fun _ : Nat => ApiOutcome.failure false) a) = true) ∧
    truthy_cache none = false ∧
    extract str_float_model py_str_model (fun _ => none) valid_markets none
      (fun _ => .failure false) = [default_extraction] ∧
    extract str_float_model py_str_model (fun _ => none) valid_markets none
      (fun _ => .failure false) ≠ [] :=
  ⟨fun _ => rfl, fun _ _ => rfl, rfl,
   (extract_total_and_falls_back str_float_model py_str_model (fun _ => none)
      valid_markets none (fun _ => .failure false)).2.2.2.1
     (fun _ => rfl) rfl,
   (extract_total_and_falls_back str_float_model py_str_model (fun _ => none)
      valid_markets none (fun _ => .failure false)).1⟩

/-- Arithmetic mean of a list of scores (sum(scores) / len(scores)); also the
value of the SQL AVG aggregate over the same rows. -/
def list_mean (xs : List ℚ) : ℚ := xs.sum / xs.length

/-- Population variance of a list of scores, as computed in detect_anomaly:
sum((x - mean)^2 for x in scores) / len(scores). -/
def pop_variance (xs : List ℚ) : ℚ :=
  (xs.map (fun x => (x - list_mean xs) ^ 2)).sum / xs.length

/-- detect_anomaly from src/analysis/trends.py.  Inputs: whether the market
row exists, the sentiment scores of the trailing 30-day window, and the
scores of the trailing 3-day window (whose SQL AVG is NULL exactly when the
window is empty).  The z-score comparison is over the reals; the standard
deviation is floored at 0.1. -/
def detect_anomaly (market_exists : Bool) (scores recent_scores : List ℚ) :
    Prop :=
  if market_exists = false then False
  else if scores.length < 5 then False
  else
    match (if recent_scores.isEmpty then none
           else some (list_mean recent_scores)) with
    | none => False
    | some recent =>
      |((recent : ℝ) - (list_mean scores : ℝ)) /
        max (Real.sqrt ((pop_variance scores : ℚ) : ℝ)) 0.1| > 2.0

/-- C5: for an existing market, the anomaly detector fires exactly when the
30-day window has at least 5 samples, the 3-day window is non-empty, and
the absolute z-score (recent mean minus baseline mean over the stddev
floored at 0.1) exceeds 2. -/
theorem detect_anomaly_characterization (market_exists : Bool)
    (scores recent_scores : List ℚ) (hex : market_exists = true) :
    detect_anomaly market_exists scores recent_scores ↔
      (5 ≤ scores.length ∧ recent_scores ≠ [] ∧
       |(list_mean recent_scores : ℝ) - (list_mean scores : ℝ)| /
         max (Real.sqrt ((pop_variance scores : ℚ) : ℝ)) 0.1 > 2.0) := by
  subst hex
  rw [detect_anomaly]
  simp only [Bool.true_eq_false, if_false]
  by_cases h5 : scores.length < 5
  · simp only [if_pos h5, false_iff]
    rintro ⟨h5', _⟩
    omega
  · rw [if_neg h5]
    by_cases hr : recent_scores.isEmpty
    · simp only [hr, if_true]
      simp [List.isEmpty_iff.mp hr]
    · simp only [hr, Bool.false_eq_true, if_false]
      have hc : (0 : ℝ) < max (Real.sqrt ((pop_variance scores : ℚ) : ℝ)) 0.1 :=
        lt_of_lt_of_le (by norm_num) (le_max_right _ _)
      rw [abs_div, abs_of_pos hc]
      constructor
      · intro hgt
        refine ⟨Nat.not_lt.mp h5, ?_, hgt⟩
        intro hnil
        exact hr (by simp [hnil])
      · rintro ⟨_, _, hgt⟩
        exact hgt

/-- Witness for C5: five baseline scores at 0 and a recent score of 1/2 give
z = 5 with the floored stddev, so the detector fires. -/
theorem detect_anomaly_characterization_witness :
    (true = true) ∧
    detect_anomaly true [0, 0, 0, 0, 0] [1/2] := by
  refine ⟨rfl, (detect_anomaly_characterization true [0, 0, 0, 0, 0] [1/2]
    rfl).mpr ⟨by norm_num, by simp, ?_⟩⟩
  have h1 : list_mean ([1/2] : List ℚ) = 1/2 := by
    norm_num [list_mean]
  have h2 : pop_variance ([0, 0, 0, 0, 0] : List ℚ) = 0 := by
    norm_num [pop_variance, list_mean]
  have h3 : list_mean ([0, 0, 0, 0, 0] : List ℚ) = 0 := by
    norm_num [list_mean]
  rw [h1, h2, h3]
  have h4 : Real.sqrt (((0 : ℚ) : ℝ)) = 0 := by
    simp [Real.sqrt_zero]
  rw [h4]
  have h5 : max (0 : ℝ) 0.1 = 0.1 := max_eq_right (by norm_num)
  rw [h5]
  push_cast
  rw [sub_zero, abs_of_pos (by norm_num : (0 : ℝ) < 1/2)]
  norm_num

/-- Python str.strip() on a character list. -/
def py_strip_list (l : List Char) : List Char :=
  ((l.dropWhile is_py_space).reverse.dropWhile is_py_space).reverse

/-- The ordered sentence/paragraph boundary markers of
VectorStore._chunk_text. -/
def chunk_seps : List (List Char) :=
  [". ".data, ".\n".data, "! ".data, "? ".data, "\n\n".data]

/-- Python str.rfind(sep): the greatest index at which sep occurs entirely
inside hay, none when absent. -/
def rfind_list (hay sep : List Char) : Option Nat :=
  (((List.range (hay.length + 1)).filter
    (fun i => sep.isPrefixOf (hay.drop i)))).getLast?

/-- The boundary-search loop of _chunk_text: take the first separator whose
last occurrence in the window lies past the midpoint of the chunk size, and
cut just after it. -/
def find_sentence_end (size : Nat) (window : List Char) :
    List (List Char) → Option Nat
  | [] => none
  | sep :: rest =>
    match rfind_list window sep with
    | some i =>
      if size / 2 < i then some (i + sep.length)
      else find_sentence_end size window rest
    | none => find_sentence_end size window rest

/-- The end position of the chunk that starts at start: the raw size
boundary, moved back to a sentence boundary when the window does not reach
the end of the text and a separator occurs past the midpoint. -/
def chunk_end (size : Nat) (text : List Char) (start : Nat) : Nat :=
  if start + size < text.length then
    match find_sentence_end size ((text.drop start).take size) chunk_seps with
    | some e => start + e
    | none => start + size
  else start + size

/-- The while loop of _chunk_text.  The window start advances to
end - overlap but never by less than one character; the fuel argument is
only a structural bound on the number of iterations (the loop runs at most
length - start times because start strictly increases). -/
def chunk_loop (size overlap : Nat) (text : List Char) :
    Nat → Nat → List (List Char)
  | _, 0 => []
  | start, fuel + 1 =>
    if start < text.length then
      (if 50 < (py_strip_list
          ((text.drop start).take (chunk_end size text start - start))).length
       then [py_strip_list
          ((text.drop start).take (chunk_end size text start - start))]
       else []) ++
      chunk_loop size overlap text
        (max (chunk_end size text start - overlap) (start + 1)) fuel
    else []

/-- VectorStore._chunk_text: reject overlap ≥ size as a configuration error,
truncate the text to the configured maximum, and run the chunking loop. -/
def chunk_text (size overlap maxLen : Nat) (text : List Char) :
    Except String (List (List Char)) :=
  if size ≤ overlap then
    .error "chunk_overlap must be less than chunk_size"
  else
    .ok (chunk_loop size overlap (text.take maxLen) 0
      ((text.take maxLen).length + 1))

theorem getLast?_mem_of_eq {α : Type} {l : List α} {a : α}
    (h : l.getLast? = some a) : a ∈ l := by
  induction l with
  | nil => simp at h
  | cons b rest ih =>
    cases rest with
    | nil =>
      simp [List.getLast?] at h
      simp [h]
    | cons c cs =>
      rw [List.getLast?_cons_cons] at h
      exact List.mem_cons_of_mem _ (ih h)

theorem isPrefixOf_length_le : ∀ (s l : List Char),
    s.isPrefixOf l = true → s.length ≤ l.length := by
  intro s
  induction s with
  | nil => intro l _; simp
  | cons a as ih =>
    intro l h
    cases l with
    | nil => simp [List.isPrefixOf] at h
    | cons b bs =>
      simp only [List.isPrefixOf, Bool.and_eq_true] at h
      have := ih bs h.2
      simp only [List.length_cons]
      omega

theorem rfind_list_le {hay sep : List Char} {i : Nat}
    (h : rfind_list hay sep = some i) : i + sep.length ≤ hay.length := by
  have hmem := getLast?_mem_of_eq h
  rw [List.mem_filter] at hmem
  obtain ⟨hrange, hpre⟩ := hmem
  have hi : i < hay.length + 1 := List.mem_range.mp hrange
  have := isPrefixOf_length_le sep (hay.drop i) hpre
  rw [List.length_drop] at this
  omega

theorem find_sentence_end_le {size : Nat} {window : List Char} {e : Nat} :
    ∀ seps, find_sentence_end size window seps = some e →
    e ≤ window.length := by
  intro seps
  induction seps with
  | nil => intro h; simp [find_sentence_end] at h
  | cons sep rest ih =>
    intro h
    rw [find_sentence_end] at h
    split at h
    next i hr =>
      split at h
      · simp only [Option.some.injEq] at h
        subst h
        exact rfind_list_le hr
      · exact ih h
    · exact ih h

theorem chunk_end_sub_le (size : Nat) (text : List Char) (start : Nat) :
    chunk_end size text start - start ≤ size := by
  rw [chunk_end]
  split
  next hlt =>
    split
    next e he =>
      have h1 := find_sentence_end_le chunk_seps he
      have h2 : ((text.drop start).take size).length ≤ size :=
        List.length_take_le _ _
      omega
    · omega
  · omega

theorem dropWhile_length_le (p : Char → Bool) (l : List Char) :
    (l.dropWhile p).length ≤ l.length := by
  induction l with
  | nil => simp
  | cons a as ih =>
    rw [List.dropWhile_cons]
    split
    · exact Nat.le_trans ih (by simp)
    · exact Nat.le_refl _

theorem py_strip_list_length (l : List Char) :
    (py_strip_list l).length ≤ l.length := by
  rw [py_strip_list]
  calc (((l.dropWhile is_py_space).reverse.dropWhile is_py_space).reverse).length
      = ((l.dropWhile is_py_space).reverse.dropWhile is_py_space).length := by
        rw [List.length_reverse]
    _ ≤ (l.dropWhile is_py_space).reverse.length :=
        dropWhile_length_le _ _
    _ = (l.dropWhile is_py_space).length := by rw [List.length_reverse]
    _ ≤ l.length := dropWhile_length_le _ _

theorem chunk_loop_bounds (size overlap : Nat) (text : List Char) :
    ∀ (fuel start : Nat), ∀ c ∈ chunk_loop size overlap text start fuel,
    50 < c.length ∧ c.length ≤ size := by
  intro fuel
  induction fuel with
  | zero => intro start c hc; simp [chunk_loop] at hc
  | succ fuel ih =>
    intro start c hc
    rw [chunk_loop] at hc
    by_cases hs : start < text.length
    · rw [if_pos hs] at hc
      rw [List.mem_append] at hc
      rcases hc with hc | hc
      · by_cases hemit : 50 < (py_strip_list
            ((text.drop start).take (chunk_end size text start - start))).length
        · rw [if_pos hemit] at hc
          simp only [List.mem_singleton] at hc
          subst hc
          refine ⟨hemit, ?_⟩
          calc (py_strip_list
                ((text.drop start).take (chunk_end size text start - start))).length
              ≤ ((text.drop start).take (chunk_end size text start - start)).length :=
                py_strip_list_length _
            _ ≤ chunk_end size text start - start := List.length_take_le _ _
            _ ≤ size := chunk_end_sub_le _ _ _
        · rw [if_neg hemit] at hc
          simp at hc
      · exact ih _ c hc
    · rw [if_neg hs] at hc
      simp at hc

theorem chunk_loop_fuel_stable (size overlap : Nat) (text : List Char) :
    ∀ (fuel extra start : Nat), text.length - start < fuel →
    chunk_loop size overlap text start (fuel + extra) =
      chunk_loop size overlap text start fuel := by
  intro fuel
  induction fuel with
  | zero => intro extra start h; omega
  | succ fuel ih =>
    intro extra start h
    rw [show fuel + 1 + extra = (fuel + extra) + 1 by omega]
    rw [chunk_loop, chunk_loop]
    by_cases hs : start < text.length
    · rw [if_pos hs, if_pos hs]
      congr 1
      exact ih extra _ (by omega)
    · rw [if_neg hs, if_neg hs]

/-- C4: with overlap strictly below the chunk size, chunking succeeds, every
emitted chunk has length in [51, size], and the loop is insensitive to any
extra fuel beyond length + 1 iterations - the window start strictly
increases each round, so the loop terminates within that bound. -/
theorem chunk_text_terminates_and_bounds (size overlap maxLen : Nat)
    (text : List Char) (h : overlap < size) :
    ∃ chunks, chunk_text size overlap maxLen text = .ok chunks ∧
      (∀ c ∈ chunks, 51 ≤ c.length ∧ c.length ≤ size) ∧
      (∀ extra, chunk_loop size overlap (text.take maxLen) 0
        ((text.take maxLen).length + 1 + extra) = chunks) := by
  refine ⟨chunk_loop size overlap (text.take maxLen) 0
    ((text.take maxLen).length + 1), ?_, ?_, ?_⟩
  · rw [chunk_text, if_neg (by omega)]
  · intro c hc
    have := chunk_loop_bounds size overlap (text.take maxLen) _ 0 c hc
    exact ⟨this.1, this.2⟩
  · intro extra
    rw [show (text.take maxLen).length + 1 + extra =
      ((text.take maxLen).length + 1) + extra by omega]
    exact chunk_loop_fuel_stable size overlap (text.take maxLen)
      ((text.take maxLen).length + 1) extra 0 (by omega)

/-- Witness for C4 at the default configuration (size 500, overlap 100) on a
concrete 60-character text. -/
theorem chunk_text_terminates_and_bounds_witness :
    (100 < 500) ∧
    ∃ chunks, chunk_text 500 100 12000
        "This concrete article text is sixty characters long, okay..".data =
      .ok chunks ∧
      (∀ c ∈ chunks, 51 ≤ c.length ∧ c.length ≤ 500) ∧
      (∀ extra, chunk_loop 500 100
        ("This concrete article text is sixty characters long, okay..".data.take
          12000) 0
        (("This concrete article text is sixty characters long, okay..".data.take
          12000).length + 1 + extra) = chunks) :=
  ⟨by norm_num,
   chunk_text_terminates_and_bounds 500 100 12000
     "This concrete article text is sixty characters long, okay..".data
     (by norm_num)⟩

/-- The parsed article produced by the Collector (RawArticle in
src/ingestion/collector.py); the publish timestamp is modelled as a rational
epoch value. -/
structure RawArticle where
  url : String
  title : String
  content : String
  source : String
  published_at : Option ℚ
deriving DecidableEq

/-- What one HTTP attempt of NewsCollector._fetch can observe. -/
inductive FetchOutcome where
  | ok200 (html : String)
  | status429
  | statusOther (code : Nat)
  | timeout
  | networkError
  | httpStatusError
  | otherException

/-- max_attempts in NewsCollector._fetch. -/
def max_attempts : Nat := 3

/-- Prepend a recorded sleep to an attempt result. -/
def with_sleep (w : ℚ) (r : Option RawArticle × List ℚ) :
    Option RawArticle × List ℚ := (r.1, w :: r.2)

/-- The attempt loop of NewsCollector._fetch over a script of per-attempt
outcomes.  Returns the fetched article (none on failure) together with the
sleeps performed: 3*(attempt+1) seconds after a 429, 2*(attempt+1) seconds
after a timeout or transient network error on any attempt but the last;
other statuses and non-retryable errors abandon the URL immediately. -/
def fetch_attempts (parse : String → Option RawArticle)
    (outcomes : Nat → FetchOutcome) : Nat → Nat → Option RawArticle × List ℚ
  | _, 0 => (none, [])
  | attempt, fuel + 1 =>
    match outcomes attempt with
    | .ok200 html => (parse html, [])
    | .status429 =>
      with_sleep (3 * (attempt + 1) : ℚ)
        (fetch_attempts parse outcomes (attempt + 1) fuel)
    | .statusOther _ => (none, [])
    | .timeout =>
      if attempt < max_attempts - 1 then
        with_sleep (2 * (attempt + 1) : ℚ)
          (fetch_attempts parse outcomes (attempt + 1) fuel)
      else fetch_attempts parse outcomes (attempt + 1) fuel
    | .networkError =>
      if attempt < max_attempts - 1 then
        with_sleep (2 * (attempt + 1) : ℚ)
          (fetch_attempts parse outcomes (attempt + 1) fuel)
      else fetch_attempts parse outcomes (attempt + 1) fuel
    | .httpStatusError => (none, [])
    | .otherException => (none, [])

/-- NewsCollector._fetch: run the attempt loop from attempt 0 with the
maximum attempt count. -/
def fetch (parse : String → Option RawArticle)
    (outcomes : Nat → FetchOutcome) : Option RawArticle × List ℚ :=
  fetch_attempts parse outcomes 0 max_attempts

/-- Whether an attempt outcome is a timeout or transient network error. -/
def is_transient : FetchOutcome → Bool
  | .timeout => true
  | .networkError => true
  | _ => false

/-- C2: when every attempt fails with a timeout or transient network error,
the fetch performs exactly the sleeps 2 and 4 seconds - the i-th recorded
retry delay is 2^(i+1), exponential in the attempt number - and after the
third attempt the URL yields no document. -/
theorem fetch_transient_backoff (parse : String → Option RawArticle)
    (outcomes : Nat → FetchOutcome)
    (h : ∀ a, a < max_attempts → is_transient (outcomes a) = true) :
    (fetch parse outcomes).1 = none ∧
    (fetch parse outcomes).2 = [2, 4] ∧
    (∀ i w, (fetch parse outcomes).2.get? i = some w →
      w = (2 : ℚ) ^ (i + 1)) := by
  have h0 : outcomes 0 = .timeout ∨ outcomes 0 = .networkError := by
    have := h 0 (by norm_num [max_attempts])
    cases ho : outcomes 0 <;> rw [ho] at this <;> simp_all [is_transient]
  have h1 : outcomes 1 = .timeout ∨ outcomes 1 = .networkError := by
    have := h 1 (by norm_num [max_attempts])
    cases ho : outcomes 1 <;> rw [ho] at this <;> simp_all [is_transient]
  have h2 : outcomes 2 = .timeout ∨ outcomes 2 = .networkError := by
    have := h 2 (by norm_num [max_attempts])
    cases ho : outcomes 2 <;> rw [ho] at this <;> simp_all [is_transient]
  have key : fetch parse outcomes = (none, [2, 4]) := by
    rcases h0 with h0 | h0 <;> rcases h1 with h1 | h1 <;> rcases h2 with h2 | h2 <;>
      · rw [fetch]
        rw [show max_attempts = 3 from rfl]
        rw [fetch_attempts, h0]
        rw [fetch_attempts, h1]
        rw [fetch_attempts, h2]
        rw [fetch_attempts]
        norm_num [max_attempts, with_sleep]
  refine ⟨by rw [key], by rw [key], ?_⟩
  intro i w hw
  rw [key] at hw
  match i with
  | 0 =>
    simp only [List.get?] at hw
    rw [Option.some.injEq] at hw
    subst hw
    norm_num
  | 1 =>
    simp only [List.get?] at hw
    rw [Option.some.injEq] at hw
    subst hw
    norm_num
  | n + 2 => simp at hw

/-- Witness for C2: a script of nothing but timeouts yields no document and
the delay schedule 2, 4. -/
theorem fetch_transient_backoff_witness :
    (∀ a, a < max_attempts →
      is_transient ((fun _ : Nat => FetchOutcome.timeout) a) = true) ∧
    (fetch (fun _ => none) (fun _ => .timeout)).1 = none ∧
    (fetch (fun _ => none) (fun _ => .timeout)).2 = [2, 4] :=
  ⟨fun _ _ => rfl,
   (fetch_transient_backoff (fun _ => none) (fun _ => .timeout)
      (fun _ _ => rfl)).1,
   (fetch_transient_backoff (fun _ => none) (fun _ => .timeout)
      (fun _ _ => rfl)).2.1⟩

/-- A candidate item produced by Source Discovery (NewsItem in
src/ingestion/sources.py). -/
structure NewsItem where
  url : String
  title : String
  source : String
  published : Option ℚ
deriving DecidableEq

/-- The dedupe loop at the end of NewsSources.fetch_all: walk the combined
rss ++ newsapi list, keep an item only when its URL has not been seen yet. -/
def dedupe_by_url_go : List String → List NewsItem → List NewsItem
  | _, [] => []
  | seen, item :: rest =>
    if item.url ∈ seen then dedupe_by_url_go seen rest
    else item :: dedupe_by_url_go (item.url :: seen) rest

/-- Dedupe-by-URL over the items of one fetch_all call. -/
def dedupe_by_url (items : List NewsItem) : List NewsItem :=
  dedupe_by_url_go [] items

theorem dedupe_go_sublist :
    ∀ (seen : List String) (items : List NewsItem),
    (dedupe_by_url_go seen items).Sublist items := by
  intro seen items
  induction items generalizing seen with
  | nil => simp [dedupe_by_url_go]
  | cons item rest ih =>
    rw [dedupe_by_url_go]
    split
    · exact (ih seen).cons _
    · exact (ih (item.url :: seen)).cons₂ _

theorem dedupe_go_not_seen_and_nodup :
    ∀ (seen : List String) (items : List NewsItem),
    (∀ r ∈ dedupe_by_url_go seen items, r.url ∉ seen) ∧
    ((dedupe_by_url_go seen items).map NewsItem.url).Nodup := by
  intro seen items
  induction items generalizing seen with
  | nil => simp [dedupe_by_url_go]
  | cons item rest ih =>
    rw [dedupe_by_url_go]
    split
    next hseen => exact ih seen
    next hnew =>
      constructor
      · intro r hr
        rcases List.mem_cons.mp hr with hr | hr
        · subst hr; exact hnew
        · intro hc
          exact (ih (item.url :: seen)).1 r hr (List.mem_cons_of_mem _ hc)
      · rw [List.map_cons, List.nodup_cons]
        refine ⟨?_, (ih (item.url :: seen)).2⟩
        intro hc
        obtain ⟨r, hr, hru⟩ := List.mem_map.mp hc
        exact (ih (item.url :: seen)).1 r hr (hru ▸ List.mem_cons_self _ _)

theorem dedupe_go_first_occurrence :
    ∀ (seen : List String) (items : List NewsItem) (r : NewsItem),
    r ∈ dedupe_by_url_go seen items →
    items.find? (fun x => x.url == r.url) = some r := by
  intro seen items
  induction items generalizing seen with
  | nil => intro r hr; simp [dedupe_by_url_go] at hr
  | cons item rest ih =>
    intro r hr
    rw [dedupe_by_url_go] at hr
    split at hr
    next hseen =>
      have hne : item.url ≠ r.url := by
        intro he
        exact (dedupe_go_not_seen_and_nodup seen rest).1 r hr (he ▸ hseen)
      rw [List.find?_cons_of_neg _ (by simpa using hne)]
      exact ih seen r hr
    next hnew =>
      rcases List.mem_cons.mp hr with hr | hr
      · subst hr
        exact List.find?_cons_of_pos _ (by simp)
      · have hne : item.url ≠ r.url := by
          intro he
          exact (dedupe_go_not_seen_and_nodup (item.url :: seen) rest).1 r hr
            (he ▸ List.mem_cons_self _ _)
        rw [List.find?_cons_of_neg _ (by simpa using hne)]
        exact ih (item.url :: seen) r hr

theorem dedupe_go_coverage :
    ∀ (seen : List String) (items : List NewsItem) (it : NewsItem),
    it ∈ items → it.url ∉ seen →
    ∃ r ∈ dedupe_by_url_go seen items, r.url = it.url := by
  intro seen items
  induction items generalizing seen with
  | nil => intro it hit _; simp at hit
  | cons item rest ih =>
    intro it hit hns
    rw [dedupe_by_url_go]
    split
    next hseen =>
      rcases List.mem_cons.mp hit with hit | hit
      · exact absurd (hit ▸ hns) (by simp [hseen])
      · exact ih seen it hit hns
    next hnew =>
      rcases List.mem_cons.mp hit with hit | hit
      · exact ⟨item, List.mem_cons_self _ _, by rw [hit]⟩
      · by_cases hsame : it.url = item.url
        · exact ⟨item, List.mem_cons_self _ _, hsame.symm⟩
        · obtain ⟨r, hr, hru⟩ := ih (item.url :: seen) it hit
            (by simp [hsame, hns])
          exact ⟨r, List.mem_cons_of_mem _ hr, hru⟩

/-- Counterexample for C3 as stated: two items sharing a URL with source
labels A then B are deduplicated to the first-seen item, whose label is A,
not the last-seen label B. -/
theorem dedupe_last_seen_counterexample :
    dedupe_by_url
      [{ url := "u", title := "t1", source := "A", published := none },
       { url := "u", title := "t2", source := "B", published := none }] =
      [{ url := "u", title := "t1", source := "A", published := none }] ∧
    ({ url := "u", title := "t1", source := "A", published := none } :
      NewsItem).source ≠ "B" := by
  refine ⟨?_, by decide⟩
  rfl

/-- C3 amended: the deduplicated output contains exactly one item per URL -
the first-seen item, hence the first-seen source label - and retained items
keep the order in which they were first encountered. -/
theorem dedupe_by_url_first_seen (items : List NewsItem) :
    (dedupe_by_url items).Sublist items ∧
    ((dedupe_by_url items).map NewsItem.url).Nodup ∧
    (∀ r ∈ dedupe_by_url items,
      items.find? (fun x => x.url == r.url) = some r) ∧
    (∀ it ∈ items, ∃ r ∈ dedupe_by_url items, r.url = it.url) :=
  ⟨dedupe_go_sublist [] items,
   (dedupe_go_not_seen_and_nodup [] items).2,
   fun r hr => dedupe_go_first_occurrence [] items r hr,
   fun it hit => dedupe_go_coverage [] items it hit (by simp)⟩

/-- Witness for C3 at a concrete two-item run with a shared URL. -/
theorem dedupe_by_url_first_seen_witness :
    ({ url := "u", title := "t1", source := "A", published := none } :
        NewsItem) ∈
      dedupe_by_url
        [{ url := "u", title := "t1", source := "A", published := none },
         { url := "u", title := "t2", source := "B", published := none }] ∧
    ([{ url := "u", title := "t1", source := "A", published := none },
      { url := "u", title := "t2", source := "B", published := none }] :
        List NewsItem).find? (fun x => x.url == "u") =
      some { url := "u", title := "t1", source := "A", published := none } := by
  constructor
  · show _ ∈ dedupe_by_url _
    rw [show dedupe_by_url
      [{ url := "u", title := "t1", source := "A", published := none },
       { url := "u", title := "t2", source := "B", published := none }] =
      [{ url := "u", title := "t1", source := "A", published := none }]
      from rfl]
    exact List.mem_singleton.mpr rfl
  · exact (dedupe_by_url_first_seen
      [{ url := "u", title := "t1", source := "A", published := none },
       { url := "u", title := "t2", source := "B", published := none }]).2.2.1
      { url := "u", title := "t1", source := "A", published := none }
      (by rw [show dedupe_by_url
        [{ url := "u", title := "t1", source := "A", published := none },
         { url := "u", title := "t2", source := "B", published := none }] =
        [{ url := "u", title := "t1", source := "A", published := none }]
        from rfl]; exact List.mem_singleton.mpr rfl)

/-- NewsCollector.content_hash: a digest of the first 5000 characters of the
cleaned text; the SHA-256 primitive itself is the external hashlib function,
passed in as sha. -/
def content_hash (sha : String → String) (content : String) : String :=
  sha (py_take 5000 content)

/-- The post-gather dedup loop of NewsCollector.collect: keep each result
that is an article with non-empty content whose content hash has not been
seen yet (exceptions from the gather are none). -/
def collect_dedupe_go (sha : String → String) :
    List String → List (Option RawArticle) → List RawArticle
  | _, [] => []
  | seen, none :: rest => collect_dedupe_go sha seen rest
  | seen, some r :: rest =>
    if r.content = "" then collect_dedupe_go sha seen rest
    else if content_hash sha r.content ∈ seen then
      collect_dedupe_go sha seen rest
    else r :: collect_dedupe_go sha (content_hash sha r.content :: seen) rest

/-- Batch dedup by content fingerprint over one collect call. -/
def collect_dedupe (sha : String → String)
    (results : List (Option RawArticle)) : List RawArticle :=
  collect_dedupe_go sha [] results

/-- A persisted Article row. -/
structure ArticleRow where
  id : String
  url : String
  title : String
  content : String
  source : String
  published_at : Option ℚ
  content_hash : String
deriving DecidableEq

/-- A persisted Market row. -/
structure MarketRow where
  id : String
  name : String
  region : String
deriving DecidableEq

/-- A persisted Sentiment row. -/
structure SentimentRow where
  id : String
  article_id : String
  market_id : String
  score : ℚ
  confidence : ℚ
  topics : List String
deriving DecidableEq

/-- A persisted Alert row. -/
structure AlertRow where
  id : String
  market_id : String
  article_id : String
  alert_type : String
  severity : String
  message : String
deriving DecidableEq

/-- The relational state the Ingestion Orchestrator commits to. -/
structure DB where
  articles : List ArticleRow
  markets : List MarketRow
  sentiments : List SentimentRow
  alerts : List AlertRow
deriving DecidableEq

/-- REGION_MAP from src/services/ingestion.py. -/
def region_map : List (String × List String) :=
  [("Northeast",
    ["New York", "Boston", "Philadelphia", "Pittsburgh", "Baltimore"]),
   ("Southeast",
    ["Miami", "Atlanta", "Tampa", "Orlando", "Charlotte", "Nashville",
     "Jacksonville", "Raleigh"]),
   ("Midwest",
    ["Chicago", "Detroit", "Cleveland", "Columbus", "Indianapolis",
     "Milwaukee", "Minneapolis", "St. Louis"]),
   ("Southwest",
    ["Phoenix", "Dallas", "Houston", "San Antonio", "Austin", "Fort Worth",
     "Albuquerque", "Tucson"]),
   ("West",
    ["Los Angeles", "San Francisco", "San Diego", "San Jose", "Seattle",
     "Portland", "Denver", "Las Vegas", "Sacramento", "Fresno"])]

/-- IngestionService._get_region: the first region whose city list contains
the market, defaulting to National. -/
def get_region : List (String × List String) → String → String
  | [], _ => "National"
  | (region, cities) :: rest, market =>
    if market ∈ cities then region else get_region rest market

/-- The effectful collaborators of one process_urls run: the hash primitive,
fresh row ids, the vector-store add (which may raise), the extractor result
(extract never raises), the anomaly verdict, and injected exception points
for the article flush and for the sentiment/alert persistence phase. -/
structure OrchEnv where
  sha : String → String
  article_id : RawArticle → String
  vector_add : RawArticle → Except Unit Nat
  extract_result : String → List Extraction
  market_id : String → String
  sentiment_id : String → String
  alert_id : String → String
  anomaly : String → Bool
  flush_fails : RawArticle → Bool
  persist_fails : RawArticle → Bool

/-- IngestionService._get_or_create_market: look the market up by name,
lazily creating it with its region on first reference. -/
def get_or_create_market (db : DB) (name : String) (fresh_id : String) :
    MarketRow × DB :=
  match db.markets.find? (fun m => m.name == name) with
  | some m => (m, db)
  | none =>
    ({ id := fresh_id, name := name, region := get_region region_map name },
     { db with markets := db.markets ++
        [{ id := fresh_id, name := name,
           region := get_region region_map name }] })

/-- The per-extraction persistence loop of process_urls: skip markets not in
the whitelist, lazily create the market, persist a clamped Sentiment row,
and run the anomaly check at most once per market per article, persisting an
Alert on a positive verdict. -/
def persist_extractions (env : OrchEnv) (article_id : String) :
    DB → List String → List Extraction → DB
  | db, _, [] => db
  | db, checked, ext :: rest =>
    if ext.market ∉ valid_markets then
      persist_extractions env article_id db checked rest
    else
      match get_or_create_market db ext.market (env.market_id ext.market) with
      | (market, db1) =>
        match { db1 with sentiments := db1.sentiments ++
          [{ id := env.sentiment_id ext.market, article_id := article_id,
             market_id := market.id,
             score := max (-1) (min 1 ext.sentiment),
             confidence := max 0 (min 1 ext.confidence),
             topics := ext.topics }] } with
        | db2 =>
          if ext.market ∈ checked then
            persist_extractions env article_id db2 checked rest
          else if env.anomaly ext.market then
            persist_extractions env article_id
              { db2 with alerts := db2.alerts ++
                [{ id := env.alert_id ext.market, market_id := market.id,
                   article_id := article_id,
                   alert_type := "sentiment_shift", severity := "high",
                   message := "Unusual sentiment shift detected" }] }
              (ext.market :: checked) rest
          else
            persist_extractions env article_id db2 (ext.market :: checked) rest

/-- Result of processing one collected article inside process_urls: a
committed transaction with its chunk count, a duplicate skip, or a failure
rolled back after counting the chunks already indexed. -/
inductive PerArticleResult where
  | committed (db : DB) (chunks : Nat)
  | skipped
  | failed (chunks : Nat)

/-- One iteration of the process_urls loop: duplicate check on URL or
content hash, article persistence, vector indexing, extraction, sentiment
and alert persistence, then commit; any exception rolls the article back. -/
def process_article (env : OrchEnv) (db : DB) (raw : RawArticle) :
    PerArticleResult :=
  if db.articles.any (fun a =>
      a.url == raw.url ||
      a.content_hash == content_hash env.sha raw.content) then
    .skipped
  else if env.flush_fails raw then .failed 0
  else
    match env.vector_add raw with
    | .error _ => .failed 0
    | .ok chunks =>
      if env.persist_fails raw then .failed chunks
      else
        .committed
          (persist_extractions env (env.article_id raw)
            { db with articles := db.articles ++
              [{ id := env.article_id raw, url := raw.url, title := raw.title,
                 content := raw.content, source := raw.source,
                 published_at := raw.published_at,
                 content_hash := content_hash env.sha raw.content }] }
            [] (env.extract_result raw.content))
          chunks

/-- The batch loop of process_urls: a committed article advances the
database and the processed count, a duplicate is skipped, and a failed
article is rolled back - the next article starts from the unchanged
database - while its pre-failure chunk count still accumulates. -/
def process_loop (env : OrchEnv) : DB → List RawArticle → DB × Nat × Nat
  | db, [] => (db, 0, 0)
  | db, raw :: rest =>
    match process_article env db raw with
    | .committed db1 c =>
      match process_loop env db1 rest with
      | (dbf, p, ch) => (dbf, p + 1, ch + c)
    | .skipped => process_loop env db rest
    | .failed c =>
      match process_loop env db rest with
      | (dbf, p, ch) => (dbf, p, ch + c)

/-- The aggregate counts process_urls returns. -/
structure ProcessSummary where
  processed : Nat
  skipped : Nat
  chunks : Nat
deriving DecidableEq

/-- IngestionService.process_urls: dedupe the collected fetch results by
content hash, short-circuit when nothing was collected, else run the batch
loop and report processed / skipped / chunk totals. -/
def process_urls (env : OrchEnv) (urls : List String)
    (collected : List (Option RawArticle)) (db : DB) :
    ProcessSummary × DB :=
  if (collect_dedupe env.sha collected).isEmpty then
    ({ processed := 0, skipped := urls.length, chunks := 0 }, db)
  else
    match process_loop env db (collect_dedupe env.sha collected) with
    | (dbf, p, ch) =>
      ({ processed := p, skipped := urls.length - p, chunks := ch }, dbf)

/-- C8: a per-article failure is rolled back and the batch continues - the
loop over the remaining articles starts from the database unchanged by the
failed article, and only the failed article's pre-failure chunk count is
added - and process_urls always returns counts with
skipped = #urls - processed rather than raising. -/
theorem process_urls_rolls_back_and_continues (env : OrchEnv) (db : DB)
    (raw : RawArticle) (rest : List RawArticle) (c : Nat)
    (h : process_article env db raw = .failed c) :
    process_loop env db (raw :: rest) =
      ((process_loop env db rest).1, (process_loop env db rest).2.1,
       (process_loop env db rest).2.2 + c) ∧
    (∀ (urls : List String) (collected : List (Option RawArticle)) (db0 : DB),
      (process_urls env urls collected db0).1.skipped =
        urls.length - (process_urls env urls collected db0).1.processed) := by
  constructor
  · rw [process_loop, h]
  · intro urls collected db0
    rw [process_urls]
    split
    · simp
    · cases hrec : process_loop env db0 (collect_dedupe env.sha collected) with
      | mk dbf pch => cases pch with
        | mk p ch => simp

/-- An environment whose vector-store add always raises, for exercising the
failure path on concrete inputs. -/
def env_index_down : OrchEnv :=
  { sha := fun s => s
    article_id := fun r => r.url
    vector_add := fun _ => .error ()
    extract_result := fun _ => [default_extraction]
    market_id := fun n => n
    sentiment_id := fun n => n
    alert_id := fun n => n
    anomaly := fun _ => false
    flush_fails := fun _ => false
    persist_fails := fun _ => false }

/-- The empty database. -/
def empty_db : DB := { articles := [], markets := [], sentiments := [],
                       alerts := [] }

/-- A concrete fetched article. -/
def raw_doc : RawArticle :=
  { url := "http://a.example/one", title := "t", content := "body",
    source := "Web", published_at := none }

/-- Witness for C8: with the index down, the one-article batch fails, the
database threaded to the rest of the batch is the pre-article database, and
the counts identity holds on a concrete run. -/
theorem process_urls_rolls_back_and_continues_witness :
    process_article env_index_down empty_db raw_doc = .failed 0 ∧
    process_loop env_index_down empty_db [raw_doc] =
      ((process_loop env_index_down empty_db []).1,
       (process_loop env_index_down empty_db []).2.1,
       (process_loop env_index_down empty_db []).2.2 + 0) ∧
    (process_urls env_index_down ["http://a.example/one"] [some raw_doc]
        empty_db).1.skipped =
      1 - (process_urls env_index_down ["http://a.example/one"]
        [some raw_doc] empty_db).1.processed := by
  refine ⟨rfl, ?_, ?_⟩
  · exact (process_urls_rolls_back_and_continues env_index_down empty_db
      raw_doc [] 0 rfl).1
  · exact (process_urls_rolls_back_and_continues env_index_down empty_db
      raw_doc [] 0 rfl).2 ["http://a.example/one"] [some raw_doc] empty_db

/-- C10: the content fingerprint depends only on the first 5000 characters
of the cleaned text, so two documents agreeing on that prefix share a
fingerprint; the batch dedup of collect then drops the later one, and the
orchestrator's duplicate check skips a document whose fingerprint is already
persisted. -/
theorem content_hash_prefix_only (sha : String → String) (t1 t2 : String)
    (d1 d2 : RawArticle) (env : OrchEnv) (db : DB) (a : ArticleRow)
    (raw : RawArticle) :
    (py_take 5000 t1 = py_take 5000 t2 →
      content_hash sha t1 = content_hash sha t2) ∧
    (d1.content ≠ "" → d2.content ≠ "" →
      py_take 5000 d1.content = py_take 5000 d2.content →
      collect_dedupe sha [some d1, some d2] = [d1]) ∧
    (a ∈ db.articles → a.content_hash = content_hash env.sha raw.content →
      process_article env db raw = .skipped) := by
  refine ⟨?_, ?_, ?_⟩
  · intro hpre
    rw [content_hash, content_hash, hpre]
  · intro h1 h2 hpre
    rw [collect_dedupe, collect_dedupe_go]
    rw [if_neg h1]
    rw [if_neg (by simp)]
    rw [collect_dedupe_go]
    rw [if_neg h2]
    rw [if_pos (by
      rw [show content_hash sha d2.content = content_hash sha d1.content by
        rw [content_hash, content_hash, hpre]]
      exact List.mem_cons_self _ _)]
    rw [collect_dedupe_go]
  · intro ha hh
    rw [process_article]
    rw [if_pos (List.any_eq_true.mpr ⟨a, ha, by simp [hh]⟩)]

/-- Witness for C10 on concrete documents sharing a (short) cleaned text and
a persisted article with the same fingerprint. -/
theorem content_hash_prefix_only_witness :
    (py_take 5000 "body" = py_take 5000 "body" ∧
      content_hash (fun s => s) "body" = content_hash (fun s => s) "body") ∧
    (collect_dedupe (fun s => s)
      [some raw_doc,
       some { url := "http://b.example/two", title := "t2", content := "body",
              source := "Web", published_at := none }] = [raw_doc]) ∧
    process_article env_index_down
      { articles := [{ id := "a0", url := "http://c.example/old",
                       title := "t0", content := "body", source := "Web",
                       published_at := none, content_hash := "body" }],
        markets := [], sentiments := [], alerts := [] } raw_doc = .skipped := by
  refine ⟨⟨rfl, ?_⟩, ?_, ?_⟩
  · exact (content_hash_prefix_only (fun s => s) "body" "body" raw_doc raw_doc
      env_index_down empty_db
      { id := "a0", url := "u", title := "t", content := "c", source := "s",
        published_at := none, content_hash := "h" } raw_doc).1 rfl
  · exact (content_hash_prefix_only (fun s => s) "body" "body" raw_doc
      { url := "http://b.example/two", title := "t2", content := "body",
        source := "Web", published_at := none }
      env_index_down empty_db
      { id := "a0", url := "u", title := "t", content := "c", source := "s",
        published_at := none, content_hash := "h" } raw_doc).2.1
      (by decide) (by decide) rfl
  · exact (content_hash_prefix_only (fun s => s) "body" "body" raw_doc raw_doc
      env_index_down
      { articles := [{ id := "a0", url := "http://c.example/old",
                       title := "t0", content := "body", source := "Web",
                       published_at := none, content_hash := "body" }],
        markets := [], sentiments := [], alerts := [] }
      { id := "a0", url := "http://c.example/old", title := "t0",
        content := "body", source := "Web", published_at := none,
        content_hash := "body" } raw_doc).2.2
      (List.mem_singleton.mpr rfl) (by decide)

/-- A file of the cache directory (src/services/cache.py): its name (the
content key), the internal JSON timestamp (none when the blob cannot be
read), the filesystem mtime and the stored payload. -/
structure CacheEntry (α : Type) where
  key : String
  internal_ts : Option ℚ
  mtime : ℚ
  payload : α
deriving DecidableEq

/-- The ranking timestamp used by the capacity sweep: the internal JSON
timestamp, falling back to the file's mtime when it cannot be read. -/
def entry_ts {α : Type} (e : CacheEntry α) : ℚ := e.internal_ts.getD e.mtime

/-- _cleanup_old: when the number of cached files exceeds the configured
maximum, rank all files by entry_ts ascending (a stable sort, as
list.sort with a key) and delete the oldest files beyond the limit; files
are deleted by name, the rest keep their directory order. -/
def cleanup_old {α : Type} (max_files : Nat) (dir : List (CacheEntry α)) :
    List (CacheEntry α) :=
  if dir.length ≤ max_files then dir
  else
    dir.filter (fun e => decide (e.key ∉
      ((dir.insertionSort (fun a b => entry_ts a ≤ entry_ts b)).take
        (dir.length - max_files)).map CacheEntry.key))

/-- set_cached: under the process-wide lock, run the capacity sweep and then
write the entry - overwriting the file when the key already exists, creating
a new file otherwise - stamping both the JSON timestamp and the mtime with
the current time t. -/
def set_cached {α : Type} (max_files : Nat) (key : String) (t : ℚ)
    (result : α) (dir : List (CacheEntry α)) : List (CacheEntry α) :=
  if (cleanup_old max_files dir).any (fun e => e.key == key) then
    (cleanup_old max_files dir).map (fun e =>
      if e.key == key then ⟨key, some t, t, result⟩ else e)
  else cleanup_old max_files dir ++ [⟨key, some t, t, result⟩]

/-- A sequence of put operations applied in order to a cache directory. -/
def apply_puts {α : Type} (max_files : Nat) :
    List (String × ℚ × α) → List (CacheEntry α) → List (CacheEntry α)
  | [], dir => dir
  | (k, t, r) :: rest, dir =>
    apply_puts max_files rest (set_cached max_files k t r dir)

/-- The directory entry a put (key, time, result) writes. -/
def put_entry {α : Type} (p : String × ℚ × α) : CacheEntry α :=
  ⟨p.1, some p.2.1, p.2.1, p.2.2⟩

/-- The key of a put. -/
def put_key {α : Type} (p : String × ℚ × α) : String := p.1

/-- The timestamp of a put. -/
def put_ts {α : Type} (p : String × ℚ × α) : ℚ := p.2.1

theorem apply_puts_append {α : Type} (M : Nat) :
    ∀ (l : List (String × ℚ × α)) (p : String × ℚ × α)
      (dir : List (CacheEntry α)),
    apply_puts M (l ++ [p]) dir =
      set_cached M p.1 p.2.1 p.2.2 (apply_puts M l dir) := by
  intro l
  induction l with
  | nil => intro p dir; rfl
  | cons q rest ih =>
    intro p dir
    rw [List.cons_append, apply_puts, apply_puts]
    exact ih p _

theorem filter_not_mem_take_keys {α : Type} :
    ∀ (l : List (CacheEntry α)) (d : Nat),
    (l.map CacheEntry.key).Nodup →
    l.filter (fun e => decide (e.key ∉ (l.take d).map CacheEntry.key)) =
      l.drop d := by
  intro l
  induction l with
  | nil => intro d _; simp
  | cons e rest ih =>
    intro d hnd
    rw [List.map_cons, List.nodup_cons] at hnd
    obtain ⟨hek, hnd⟩ := hnd
    cases d with
    | zero =>
      simp only [List.take_zero, List.map_nil, List.drop_zero]
      rw [List.filter_eq_self]
      intro a _
      simp
    | succ d =>
      rw [List.take_succ_cons, List.map_cons]
      rw [List.filter_cons]
      rw [show (decide (e.key ∉ e.key :: (rest.take d).map CacheEntry.key))
        = false by simp]
      rw [List.drop_succ_cons]
      rw [List.filter_congr (fun a ha => ?_)]
      · exact ih d hnd
      · show (decide (a.key ∉ e.key :: (rest.take d).map CacheEntry.key))
          = decide (a.key ∉ (rest.take d).map CacheEntry.key)
        have hane : a.key ≠ e.key := by
          intro hc
          exact hek (hc ▸ List.mem_map_of_mem CacheEntry.key ha)
        simp [hane]

theorem map_key_put_entry {α : Type} (l : List (String × ℚ × α)) :
    (l.map put_entry).map CacheEntry.key = l.map put_key := by
  rw [List.map_map]
  rfl

theorem any_key_eq_false {α : Type} (l : List (String × ℚ × α)) (k : String)
    (h : ∀ x ∈ l, put_key x ≠ k) :
    ((l.map put_entry).any (fun e => e.key == k)) = false := by
  rw [List.any_eq_false]
  intro e he
  obtain ⟨p, hp, rfl⟩ := List.mem_map.mp he
  simpa [put_entry] using h p hp

/-- Effect of one set_cached on a well-formed directory: a directory of at
most max+1 put entries in write order, with distinct keys and ascending
timestamps, and a fresh key being written.  At or below the maximum nothing
is deleted and the new file is appended; above it the sweep deletes the
oldest entries down to the maximum before the write. -/
theorem set_cached_step {α : Type} (M : Nat) (l : List (String × ℚ × α))
    (k : String) (t : ℚ) (r : α)
    (hknodup : (l.map put_key).Nodup)
    (hts : (l.map put_ts).Pairwise (· < ·))
    (hfresh : k ∉ l.map put_key) :
    set_cached M k t r (l.map put_entry) =
      ((if M + 1 ≤ l.length then l.drop (l.length - M) else l) ++
        [(k, t, r)]).map put_entry := by
  have hfresh' : ∀ x ∈ l, put_key x ≠ k := by
    intro x hx hc
    exact hfresh (hc ▸ List.mem_map_of_mem put_key hx)
  by_cases hc : l.length ≤ M
  · have hclean : cleanup_old M (l.map put_entry) = l.map put_entry := by
      rw [cleanup_old, if_pos (by simpa using hc)]
    rw [set_cached, hclean, any_key_eq_false l k hfresh', if_neg (by simp)]
    rw [if_neg (by omega)]
    rw [List.map_append]
    rfl
  · have hsorted : List.Sorted (fun a b => entry_ts a ≤ entry_ts b)
        (l.map put_entry) := by
      rw [List.Sorted, List.pairwise_map]
      exact (List.pairwise_map.mp hts).imp (fun h => le_of_lt h)
    have hclean : cleanup_old M (l.map put_entry) =
        (l.drop (l.length - M)).map put_entry := by
      rw [cleanup_old, if_neg (by simpa using hc)]
      rw [hsorted.insertionSort_eq]
      rw [List.length_map]
      have := filter_not_mem_take_keys (l.map put_entry) (l.length - M)
        (by rw [map_key_put_entry]; exact hknodup)
      rw [this]
      rw [List.map_drop]
    rw [set_cached, hclean]
    rw [any_key_eq_false (l.drop (l.length - M)) k
      (fun x hx => hfresh' x (List.drop_sublist _ _ |>.mem hx))]
    rw [if_neg (by simp)]
    rw [if_pos (by omega)]
    rw [List.map_append]
    rfl

/-- State of the cache directory after each put of a run of distinct-key,
time-ordered puts starting from an empty directory: the last min k (max+1)
puts, in write order. -/
theorem apply_puts_spec {α : Type} (M : Nat) (puts : List (String × ℚ × α))
    (hkeys : (puts.map put_key).Nodup)
    (hts : (puts.map put_ts).Pairwise (· < ·)) :
    ∀ k, k ≤ puts.length →
      apply_puts M (puts.take k) [] =
        ((puts.take k).drop (k - min k (M + 1))).map put_entry := by
  intro k
  induction k with
  | zero => intro _; simp [apply_puts]
  | succ k ih =>
    intro hk1
    have hk : k ≤ puts.length := by omega
    have ihEq := ih hk
    have hklt : k < puts.length := by omega
    have hp : puts[k]? = some puts[k] := List.getElem?_eq_getElem hklt
    have htake : puts.take (k + 1) = puts.take k ++ [puts[k]] := by
      rw [List.take_succ, hp]
      rfl
    have htklen : (puts.take k).length = k := by
      rw [List.length_take]
      omega
    have hsubl : ((puts.take k).drop (k - min k (M + 1))).Sublist puts :=
      (List.drop_sublist _ _).trans (List.take_sublist _ _)
    have hsufflen : ((puts.take k).drop (k - min k (M + 1))).length =
        min k (M + 1) := by
      rw [List.length_drop, htklen]
      omega
    have hsuffkeys :
        (((puts.take k).drop (k - min k (M + 1))).map put_key).Nodup :=
      hkeys.sublist (hsubl.map put_key)
    have hsuffts :
        (((puts.take k).drop (k - min k (M + 1))).map put_ts).Pairwise
          (· < ·) :=
      hts.sublist (hsubl.map put_ts)
    have hfresh : (puts[k].1 : String) ∉
        ((puts.take k).drop (k - min k (M + 1))).map put_key := by
      intro hc
      have hsub2 : ((puts.take k).drop (k - min k (M + 1))).Sublist
          (puts.take k) := List.drop_sublist _ _
      have hc2 : put_key puts[k] ∈ (puts.take k).map put_key :=
        (hsub2.map put_key).mem hc
      have hmem : puts[k] ∈ puts.drop k := by
        rw [List.drop_eq_getElem_cons hklt]
        exact List.mem_cons_self _ _
      have hnd2 : ((puts.take k).map put_key ++
          (puts.drop k).map put_key).Nodup := by
        rw [← List.map_append, List.take_append_drop]
        exact hkeys
      exact (List.disjoint_of_nodup_append hnd2) hc2
        (List.mem_map_of_mem put_key hmem)
    rw [htake, apply_puts_append, ihEq]
    rw [set_cached_step M _ _ _ _ hsuffkeys hsuffts hfresh]
    rw [hsufflen]
    by_cases hcase : k + 1 ≤ M + 1
    · rw [if_neg (by omega)]
      have hmin1 : min k (M + 1) = k := by omega
      have hmin2 : min (k + 1) (M + 1) = k + 1 := by omega
      rw [hmin1, hmin2]
      simp
    · rw [if_pos (by omega)]
      have hmin1 : min k (M + 1) = M + 1 := by omega
      have hmin2 : min (k + 1) (M + 1) = M + 1 := by omega
      rw [hmin1, hmin2]
      rw [List.drop_drop]
      rw [List.drop_append_of_le_length (by rw [htklen]; omega)]
      rw [show k - (M + 1) + (M + 1 - M) = k - M from by omega]
      rw [show k + 1 - (M + 1) = k - M from by omega]

/-- C1 amended: for distinct keys written at strictly increasing times into
an initially empty cache directory, after the k-th put the directory holds
exactly min k (max_cache_files + 1) entries - one more than the configured
maximum once it is exceeded, because the capacity sweep runs before the file
write - and the retained entries are exactly the most-recently-timestamped
ones (the last min k (max+1) puts, ranked by internal timestamp with mtime
fallback), in write order. -/
theorem cache_capacity_after_put {α : Type} (M : Nat)
    (puts : List (String × ℚ × α))
    (hkeys : (puts.map put_key).Nodup)
    (hts : (puts.map put_ts).Pairwise (· < ·))
    (k : Nat) (hk : k ≤ puts.length) :
    apply_puts M (puts.take k) [] =
      ((puts.take k).drop (k - min k (M + 1))).map put_entry ∧
    (apply_puts M (puts.take k) []).length = min k (M + 1) := by
  have h := apply_puts_spec M puts hkeys hts k hk
  refine ⟨h, ?_⟩
  rw [h, List.length_map, List.length_drop, List.length_take]
  omega

/-- Counterexample for C1 as stated: with max_cache_files = 1, after the
second put of a distinct key - and likewise after the third - the cache
directory holds 2 entries, not exactly max_cache_files = 1, because the
sweep runs before the write. -/
theorem cache_capacity_counterexample :
    (apply_puts 1 [("a", (1 : ℚ), ()), ("b", 2, ())] []).length = 2 ∧
    (apply_puts 1
      [("a", (1 : ℚ), ()), ("b", 2, ()), ("c", 3, ())] []).length = 2 ∧
    (2 : Nat) ≠ 1 := by
  refine ⟨?_, ?_, by decide⟩ <;> rfl

/-- Witness for C1 at a concrete three-put run over capacity 1. -/
theorem cache_capacity_after_put_witness :
    ((([("a", (1 : ℚ), ()), ("b", 2, ()), ("c", 3, ())] :
        List (String × ℚ × Unit)).map put_key).Nodup) ∧
    ((([("a", (1 : ℚ), ()), ("b", 2, ()), ("c", 3, ())] :
        List (String × ℚ × Unit)).map put_ts).Pairwise (· < ·)) ∧
    (3 ≤ 3) ∧
    (apply_puts 1 (([("a", (1 : ℚ), ()), ("b", 2, ()), ("c", 3, ())] :
        List (String × ℚ × Unit)).take 3) []).length = min 3 (1 + 1) :=
  ⟨by decide, by decide, by norm_num,
   (cache_capacity_after_put 1
      [("a", (1 : ℚ), ()), ("b", 2, ()), ("c", 3, ())]
      (by decide) (by decide) 3 (by norm_num)).2⟩

end RealEstate
